import Mathlib

/-!
Shallow embedding of the Jot capture/retrieval core (Rust sources under
src/), together with theorems settling the frozen specification claims.

Modelling conventions:
* f32 arithmetic is modelled exactly over the rationals; the square root of
  the f32 library is an explicit function parameter where it occurs, so that
  every definition stays computable.
* SQLite tables are modelled as lists of row structures, in insertion order;
  an UPDATE is a map over the rows, a DELETE is a filter, and the SQL
  "SELECT ... LIMIT n" is a filter followed by take.
* Timestamps (strftime now, event timestamps) are passed in explicitly as
  integer arguments.
* Rust byte indices and byte lengths coincide with character indices on the
  ASCII inputs the theorems quantify over; where a definition depends on the
  distinction (keyword_search) the UTF-8 byte size is used, as in the source.
-/

set_option maxRecDepth 4000

namespace Jot

/-! ### String primitives

Structurally recursive models of the str operations the sources use, so
that every definition evaluates by kernel reduction.  They agree with the
Rust operations on the ASCII data the theorems use. -/

/-- str::to_lowercase, modelled characterwise (ASCII). -/
def lowerStr (s : String) : String :=
  ⟨s.data.map Char.toLower⟩

/-- str::starts_with for string patterns. -/
def strStartsWith (s pre : String) : Bool :=
  pre.data.isPrefixOf s.data

/-- str::ends_with for string patterns. -/
def strEndsWith (s suf : String) : Bool :=
  suf.data.isSuffixOf s.data

/-- Entry kinds, from types.rs (enum EntryType); Display writes the
lowercase names. -/
inductive EntryType where
  | clipboard
  | shell
  | any
deriving DecidableEq, Repr

/-- Display form of an entry type, from types.rs (fmt::Display for EntryType). -/
def EntryType.toStr : EntryType → String
  | .clipboard => "clipboard"
  | .shell => "shell"
  | .any => "any"

/-- A row of the entries table, from db/mod.rs init_schema.  The embedding
blob is kept as the decoded vector. -/
structure Entry where
  id : Nat
  entry_type : EntryType
  content : String
  timestamp : Int
  times_run : Nat
  working_dir : Option String
  user : Option String
  host : Option String
  app_name : Option String
  window_title : Option String
  embedding : Option (List ℚ)
  created_at : Int
  updated_at : Int
deriving DecidableEq, Repr

/-- A row of the command_sessions table, from db/mod.rs init_schema. -/
structure SessionRow where
  entry_id : Nat
  session_id : String
  position : Int
  timestamp : Int
deriving DecidableEq, Repr

/-- A row of the command_associations table, from db/mod.rs init_schema. -/
structure AssocRow where
  command_a_id : Nat
  command_b_id : Nat
  sequence_order : Int
  strength : Nat
  last_seen : Int
deriving DecidableEq, Repr

/-- The state of the primary store: the entries table (with the next
AUTOINCREMENT id) and the derived session and association tables. -/
structure DbState where
  entries : List Entry
  next_id : Nat
  sessions : List SessionRow
  assocs : List AssocRow
deriving DecidableEq, Repr

/-- The empty store. -/
def DbState.empty : DbState := ⟨[], 0, [], []⟩

/-! ### Session and co-occurrence tracking, db/mod.rs -/

/-- The session id whose MAX(timestamp) is greatest, with that timestamp:
the row produced by the GROUP BY query in get_or_create_session_id.  The
winning session is the one owning a row of globally maximal timestamp, which
the fold below finds directly. -/
def latestSession (rows : List SessionRow) : Option (String × Int) :=
  rows.foldl
    (fun acc r =>
      match acc with
      | none => some (r.session_id, r.timestamp)
      | some (s, t) =>
          if r.timestamp > t then some (r.session_id, r.timestamp) else some (s, t))
    none

/-- Database::get_or_create_session_id from db/mod.rs: reuse the most recent
session when the last command fell within 300 seconds, else mint
session_<now>. -/
def get_or_create_session_id (rows : List SessionRow) (now : Int) : String :=
  match latestSession rows with
  | some (sid, last) =>
      if now - last < 300 then sid else "session_" ++ toString now
  | none => "session_" ++ toString now

/-- COALESCE(MAX(position), -1) over the rows of one session. -/
def maxPosition (rows : List SessionRow) (sid : String) : Int :=
  rows.foldl (fun m r => if r.session_id == sid then max m r.position else m) (-1)

/-- Insert a session row, keeping the list sorted by position descending:
used to model the ORDER BY position DESC of the recent-commands query. -/
def insertByPosDesc (r : SessionRow) : List SessionRow → List SessionRow
  | [] => [r]
  | x :: xs =>
      if r.position ≥ x.position then r :: x :: xs else x :: insertByPosDesc r xs

/-- Sort session rows by position descending (insertion sort). -/
def sortByPosDesc (l : List SessionRow) : List SessionRow :=
  l.foldr insertByPosDesc []

/-- Does an association row carry the given (command_a, command_b,
sequence_order) key? -/
def assocKeyMatch (a b : Nat) (ord : Int) (r : AssocRow) : Bool :=
  r.command_a_id == a && r.command_b_id == b && r.sequence_order == ord

/-- The INSERT ... ON CONFLICT(command_a_id, command_b_id, sequence_order)
DO UPDATE of track_associations_only: a fresh row has strength 1; a
conflicting row gets strength + 1 and last_seen refreshed.  The key is
UNIQUE in the schema, so updating every matching row models the single-row
SQL update. -/
def upsertAssoc (assocs : List AssocRow) (a b : Nat) (ord : Int) (now : Int) :
    List AssocRow :=
  if assocs.any (assocKeyMatch a b ord) then
    assocs.map fun r =>
      if assocKeyMatch a b ord r then
        { r with strength := r.strength + 1, last_seen := now }
      else r
  else
    assocs ++ [⟨a, b, ord, 1, now⟩]

/-- The edge-writing loop of track_associations_only: for (idx, prev) in
recent.iter().enumerate(), upsert (prev, entry, n - idx) where n is the
total length of the recent list. -/
def insertEdges (eid : Nat) (now : Int) (n : Nat) :
    List Nat → Nat → List AssocRow → List AssocRow
  | [], _, acc => acc
  | p :: rest, idx, acc =>
      insertEdges eid now n rest (idx + 1) (upsertAssoc acc p eid ((n : Int) - idx) now)

/-- The recent-commands query of track_associations_only: entry ids of the
session rows with position in [pos - 3, pos), ordered by position
descending.  ASSOCIATION_DEPTH = 3 in db/mod.rs. -/
def recentCommands (rows : List SessionRow) (sid : String) (pos : Int) : List Nat :=
  (sortByPosDesc (rows.filter fun r =>
      r.session_id == sid && r.position < pos && r.position ≥ pos - 3)).map
    (·.entry_id)

/-- Database::track_associations_only from db/mod.rs: append the entry to
the current session at position MAX + 1, then upsert a directed edge from
each of the up-to-3 immediately preceding session entries to the new one. -/
def track_associations_only (st : DbState) (entry_id : Nat) (now : Int) : DbState :=
  let sid := get_or_create_session_id st.sessions now
  let pos := maxPosition st.sessions sid + 1
  let sessions' := st.sessions ++ [⟨entry_id, sid, pos, now⟩]
  let recent := recentCommands sessions' sid pos
  { st with
    sessions := sessions'
    assocs := insertEdges entry_id now recent.length recent 0 st.assocs }

/-! ### Entry-table operations, db/mod.rs -/

/-- The dedup key of insert_shell: entry_type = shell AND content = ?1 AND
(host = ?2 OR (host IS NULL AND ?2 IS NULL)). -/
def shellKeyMatch (content : String) (host : Option String) (e : Entry) : Bool :=
  e.entry_type == EntryType.shell && e.content == content && e.host == host

/-- Database::insert_shell from db/mod.rs: upsert by (content, host).  If a
row already exists, bump times_run, set timestamp to the given event time
and refresh updated_at; otherwise insert a fresh row.  Either way, track
the session/co-occurrence tables for the resulting entry id. -/
def insert_shell (st : DbState) (content : String) (ts : Int)
    (working_dir user host : Option String) (app_name window_title : String)
    (embedding : Option (List ℚ)) (now : Int) : DbState :=
  match st.entries.find? (shellKeyMatch content host) with
  | some e =>
      let entries' := st.entries.map fun r =>
        if r.id == e.id then
          { r with times_run := r.times_run + 1, updated_at := now, timestamp := ts }
        else r
      track_associations_only { st with entries := entries' } e.id now
  | none =>
      let newE : Entry :=
        { id := st.next_id, entry_type := .shell, content := content,
          timestamp := ts, times_run := 1, working_dir := working_dir,
          user := user, host := host, app_name := some app_name,
          window_title := some window_title, embedding := embedding,
          created_at := now, updated_at := now }
      track_associations_only
        { st with entries := st.entries ++ [newE], next_id := st.next_id + 1 }
        st.next_id now

/-- Database::insert_clipboard from db/mod.rs: always insert a fresh row. -/
def insert_clipboard (st : DbState) (content : String) (ts : Int)
    (app_name window_title : String) (embedding : Option (List ℚ)) (now : Int) :
    DbState :=
  { st with
    entries := st.entries ++
      [{ id := st.next_id, entry_type := .clipboard, content := content,
         timestamp := ts, times_run := 1, working_dir := none, user := none,
         host := none, app_name := some app_name,
         window_title := some window_title, embedding := embedding,
         created_at := now, updated_at := now }]
    next_id := st.next_id + 1 }

/-- The content-only key of get_shell_command_id: entry_type = shell AND
content = ?, with the host ignored. -/
def shellContentMatch (content : String) (e : Entry) : Bool :=
  e.entry_type == EntryType.shell && e.content == content

/-- Database::get_shell_command_id from db/mod.rs: the id of the first
shell row with the given content, regardless of host. -/
def get_shell_command_id (st : DbState) (content : String) : Option Nat :=
  (st.entries.find? (shellContentMatch content)).map (·.id)

/-- Database::increment_shell_command from db/mod.rs: bump times_run and
refresh updated_at of the row with the given id; the event timestamp is not
touched. -/
def increment_shell_command (st : DbState) (id : Nat) (now : Int) : DbState :=
  { st with
    entries := st.entries.map fun r =>
      if r.id == id then { r with times_run := r.times_run + 1, updated_at := now }
      else r }

/-- ShellMon::add_or_increment from shell/shell_mon.rs: increment an
existing row with equal content, else insert a fresh row with no context
and no host.  ShellMon::add_to_db only reaches insert_shell when the
embedding service succeeds, so the embedding is an Option and a failed
embedding inserts nothing. -/
def add_or_increment (st : DbState) (cmd : String) (ts : Int)
    (embedding : Option (List ℚ)) (now : Int) : DbState :=
  match get_shell_command_id st cmd with
  | some id => increment_shell_command st id now
  | none =>
      match embedding with
      | some v => insert_shell st cmd ts none none none "Terminal" "unknown" (some v) now
      | none => st

/-- The arguments of one insert_shell call that may vary between the calls
of a dedup sequence: everything except content and host. -/
structure ShellOp where
  ts : Int
  working_dir : Option String
  user : Option String
  app_name : String
  window_title : String
  embedding : Option (List ℚ)
  now : Int
deriving DecidableEq, Repr

/-- Run a sequence of insert_shell operations sharing one content and
host. -/
def applyShellOps (content : String) (host : Option String) (st : DbState)
    (ops : List ShellOp) : DbState :=
  ops.foldl
    (fun s o =>
      insert_shell s content o.ts o.working_dir o.user host o.app_name
        o.window_title o.embedding o.now)
    st

/-- The shell rows carrying the given (content, host) dedup key. -/
def matchingShellRows (st : DbState) (content : String) (host : Option String) :
    List Entry :=
  st.entries.filter (shellKeyMatch content host)

/-- The association rows carrying one (command_a, command_b, order)
triple. -/
def tripleRows (assocs : List AssocRow) (a b : Nat) (ord : Int) : List AssocRow :=
  assocs.filter (assocKeyMatch a b ord)

/-- Total strength recorded for one (command_a, command_b, order) triple. -/
def tripleStrength (assocs : List AssocRow) (a b : Nat) (ord : Int) : Nat :=
  (tripleRows assocs a b ord).foldl (fun s r => s + r.strength) 0

/-- The recent-commands list one track_associations_only call works
through, written out of line: the session and position are computed as in
the source and the recent query runs against the table with the new
session row already inserted. -/
def recentOf (st : DbState) (entry_id : Nat) (now : Int) : List Nat :=
  let sid := get_or_create_session_id st.sessions now
  let pos := maxPosition st.sessions sid + 1
  recentCommands (st.sessions ++ [⟨entry_id, sid, pos, now⟩]) sid pos

/-- The sequence order the edge loop writes for the element at list index
start + idx of the recent list: n - (start + idx), where n is the length
of the whole recent list. -/
def edgeOrd (n start idx : Nat) : Int :=
  (n : Int) - ((start : Int) + (idx : Int))

/-- Positions within one session are pairwise distinct: the invariant the
MAX(position) + 1 allocation maintains. -/
abbrev sessionPositionsNodup (rows : List SessionRow) (sid : String) : Prop :=
  ((rows.filter fun r => r.session_id == sid).map (·.position)).Nodup

/-! ### Clipboard poller, clipboard/clip_mon.rs -/

/-- The poller state that ClipMon::check consults: the last captured text
and (as the observable outcome) the contents of the clipboard rows inserted
so far.  Row insertion is modelled as succeeding. -/
structure ClipState where
  last_clip : String
  rows : List String
deriving DecidableEq, Repr

/-- ClipMon::new: last_clip starts as the empty string. -/
def ClipState.init : ClipState := ⟨"", []⟩

/-- ClipMon::check from clipboard/clip_mon.rs, restricted to the row-insert
effect: a non-empty observation different from the last captured text is
inserted and becomes the last captured text; anything else inserts nothing
and leaves last_clip unchanged. -/
def clipCheck (st : ClipState) (clip : String) : ClipState :=
  if clip ≠ "" ∧ clip ≠ st.last_clip then
    { last_clip := clip, rows := st.rows ++ [clip] }
  else st

/-! ### Cosine similarity, embeds/mod.rs -/

/-- The dot product of the zipped vectors, from cosine_similarity. -/
def dotList (a b : List ℚ) : ℚ :=
  (a.zip b).foldl (fun s p => s + p.1 * p.2) 0

/-- Sum of squares of a vector, the radicand of the magnitude computation
in cosine_similarity. -/
def sumSq (a : List ℚ) : ℚ :=
  a.foldl (fun s x => s + x * x) 0

/-- cosine_similarity from embeds/mod.rs.  The f32 square root is passed in
as a function so the model stays exact and computable; f32 sqrt maps 0 to 0
and is positive on positive arguments. -/
def cosine_similarity (sqrt : ℚ → ℚ) (a b : List ℚ) : ℚ :=
  let magnitude_a := sqrt (sumSq a)
  let magnitude_b := sqrt (sumSq b)
  if magnitude_a = 0 ∨ magnitude_b = 0 then 0
  else dotList a b / (magnitude_a * magnitude_b)

/-! ### Query fingerprints, ask/fingerprint.rs -/

/-- The temporal buckets, from ask/fingerprint.rs (enum Temporal). -/
inductive Temporal where
  | today
  | yesterday
  | lastWeek
  | lastMonth
deriving DecidableEq, Repr

/-- QueryFingerprint from ask/fingerprint.rs; the keyword HashSet becomes a
Finset. -/
structure QueryFingerprint where
  keywords : Finset String
  temporal : Option Temporal
  action_verbs : List String
  modifiers : List String
  entity_type : Option String
  negations : Bool
deriving DecidableEq

/-- QueryFingerprint::similarity from ask/fingerprint.rs: keyword-overlap
weight 0.5 (only when the union is non-empty), temporal match 0.3, entity
match 0.15 when present, negation-flag match 0.05. -/
def QueryFingerprint.similarity (a b : QueryFingerprint) : ℚ :=
  (if a.keywords ∪ b.keywords ≠ ∅ then
      (((a.keywords ∩ b.keywords).card : ℚ) / ((a.keywords ∪ b.keywords).card : ℚ))
        * (5 / 10)
    else 0)
  + (if a.temporal = b.temporal then 3 / 10 else 0)
  + (if a.entity_type = b.entity_type ∧ a.entity_type.isSome then 15 / 100 else 0)
  + (if a.negations = b.negations then 5 / 100 else 0)

/-- Jaccard overlap of two keyword sets, as named by the spec formula; an
empty union contributes 0. -/
def jaccardQ (a b : Finset String) : ℚ :=
  if a ∪ b = ∅ then 0 else ((a ∩ b).card : ℚ) / ((a ∪ b).card : ℚ)

/-- The fingerprint-similarity formula the spec fixes in section 4.5,
written out for comparison with the similarity the source computes:
cosine(embedding_a, embedding_b) * 0.6 + Jaccard(keywords) * 0.3 + 0.1 on
equal temporal buckets.  The f32 square root is a function parameter, as in
cosine_similarity; the theorems below instantiate it with a function that
agrees with the true square root on the perfect-square magnitudes they
use. -/
def specSimilarity (sqrt : ℚ → ℚ) (embedding_a embedding_b : List ℚ)
    (a b : QueryFingerprint) : ℚ :=
  cosine_similarity sqrt embedding_a embedding_b * (6 / 10)
  + jaccardQ a.keywords b.keywords * (3 / 10)
  + (if a.temporal = b.temporal then 1 / 10 else 0)

/-! ### Relevance scoring, ask/search_handler.rs -/

/-- Index of the first occurrence of q inside a character list, the model
of str::find (byte indices coincide with character indices on ASCII). -/
def findSub (q : List Char) : List Char → Option Nat
  | [] => if q.isPrefixOf ([] : List Char) then some 0 else none
  | c :: tl =>
      if q.isPrefixOf (c :: tl) then some 0 else (findSub q tl).map (· + 1)

/-- The word-boundary test before an occurrence, from
calculate_relevance_score: position 0, or a non-alphanumeric character just
before it. -/
def isWordStart (cl : List Char) (pos : Nat) : Bool :=
  pos == 0 || (((cl.take pos).getLast?).map (fun c => !c.isAlphanum)).getD true

/-- The word-boundary test after an occurrence, from
calculate_relevance_score: the end of the content, or a non-alphanumeric
character right after it. -/
def isWordEnd (cl : List Char) (endPos : Nat) : Bool :=
  endPos ≥ cl.length || ((cl[endPos]?).map (fun c => !c.isAlphanum)).getD true

/-- calculate_relevance_score from ask/search_handler.rs: the query is
already lowercased by the caller; the content is lowercased here.  Branches:
exact 100, prefix 90, whole word 80 minus a position penalty, substring 60
minus a position penalty, else character overlap scaled to 40; then the
working-directory boost, applied only when both directories are
non-empty. -/
def calculate_relevance_score (content q result_pwd context_pwd : String) : ℚ :=
  let cl := (lowerStr content).toList
  let ql := q.toList
  let base : ℚ :=
    if cl = ql then 100
    else if ql.isPrefixOf cl then 90
    else
      match findSub ql cl with
      | some pos =>
          if isWordStart cl pos && isWordEnd cl (pos + ql.length) then
            80 - (pos : ℚ) / (max cl.length 1 : ℚ) * 20
          else
            60 - (pos : ℚ) / (max cl.length 1 : ℚ) * 30
      | none =>
          ((ql.filter fun c => cl.contains c).length : ℚ) / (max ql.length 1 : ℚ) * 40
  let boost : ℚ :=
    if !context_pwd.isEmpty && !result_pwd.isEmpty then
      if result_pwd = context_pwd then 15
      else if strStartsWith result_pwd context_pwd
          || strStartsWith context_pwd result_pwd then 8
      else 0
    else 0
  base + boost

/-- The per-row base score exactly as the claim states it, with the branch
taken at the first occurrence of q and word boundaries as in the source. -/
def specBaseScore (content q : String) : ℚ :=
  let cl := (lowerStr content).toList
  let ql := q.toList
  if cl = ql then 100
  else if ql.isPrefixOf cl then 90
  else
    match findSub ql cl with
    | some pos =>
        if isWordStart cl pos && isWordEnd cl (pos + ql.length) then
          80 - (pos : ℚ) / (max cl.length 1 : ℚ) * 20
        else
          60 - (pos : ℚ) / (max cl.length 1 : ℚ) * 30
    | none =>
        ((ql.filter fun c => cl.contains c).length : ℚ) / (max ql.length 1 : ℚ) * 40

/-- The working-directory boost exactly as the claim states it: +15 on
exact equality, +8 when either directory is a prefix of the other, with no
other condition. -/
def specBoost (result_pwd context_pwd : String) : ℚ :=
  if result_pwd = context_pwd then 15
  else if strStartsWith result_pwd context_pwd
      || strStartsWith context_pwd result_pwd then 8
  else 0

/-- The claimed per-row relevance: base score plus the unconditional
working-directory boost. -/
def specRelevance (content q result_pwd context_pwd : String) : ℚ :=
  specBaseScore content q + specBoost result_pwd context_pwd

/-! ### Query-shape selection of keyword_search, ask/search_handler.rs -/

/-- The shape of the SELECT keyword_search issues: which index it uses,
the match pattern, the kind filter and the LIMIT. -/
structure SqlSelect where
  useFts : Bool
  pattern : String
  kindFilter : String
  rowLimit : Nat
deriving DecidableEq, Repr

/-- The strategy switch of keyword_search: FTS with the prefix pattern
query* when the query is at least 3 bytes long, else content LIKE
percent-query-percent; both filter on the entry type and LIMIT 50. -/
def keyword_search_shape (q : String) (t : EntryType) : SqlSelect :=
  let use_fts := q.utf8ByteSize ≥ 3
  if use_fts then
    { useFts := true, pattern := q ++ "*",
      kindFilter := lowerStr t.toStr, rowLimit := 50 }
  else
    { useFts := false, pattern := "%" ++ q ++ "%",
      kindFilter := lowerStr t.toStr, rowLimit := 50 }

/-- The row set such a SELECT reads, with the lexical match left abstract:
rows of the requested kind satisfying the match, at most limit of them
(ORDER BY reorders rows upstream of the take and cannot grow the count). -/
def selectRows (rows : List Entry) (lexMatch : Entry → Bool) (t : EntryType)
    (limit : Nat) : List Entry :=
  (rows.filter fun e =>
      lexMatch e && (e.entry_type.toStr == lowerStr t.toStr)).take limit

/-! ### Built-in privacy filter, plugin/sensitive_info_plugin.rs -/

/-- Plugin control tokens, from types.rs (enum PluginAction). -/
inductive PluginAction where
  | cont
  | stop
  | modifyData
  | skip
deriving DecidableEq, Repr

/-- PrivacyConfig from config.rs. -/
structure PrivacyPolicy where
  excludes_contains_string : List String
  excludes_starts_with_string : List String
  excludes_ends_with_string : List String
  excludes_regex : List String
  exclude_folders : List String

/-- Substring containment, the model of str::contains for string
patterns. -/
def strContains (s pat : String) : Bool :=
  (findSub pat.toList s.toList).isSome

/-- str::trim_end_matches with a slash pattern: drop every trailing
slash. -/
def trimEndSlashes (s : String) : String :=
  String.mk ((s.toList.reverse.dropWhile fun c => c == '/').reverse)

/-- The regex arm of the filter: Regex::new(pattern) either compiles to a
matcher (run against the working directory) or fails, which the source
logs and treats as a non-match. -/
def regexMatches (compileRegex : String → Option (String → Bool))
    (pat target : String) : Bool :=
  match compileRegex pat with
  | some m => m target
  | none => false

/-- SensitiveCommandFilter::on_command_captured from
plugin/sensitive_info_plugin.rs.  The regex engine is passed in as a
compile function; compilation failure (a malformed pattern) yields none,
which the source logs and treats as a non-match.  Note that only the
command is lowercased before the literal checks: the configured literals
are matched verbatim. -/
def on_command_captured (compileRegex : String → Option (String → Bool))
    (privacy : PrivacyPolicy) (command working_dir : String) : PluginAction :=
  if privacy.excludes_contains_string.any
      (fun p => strContains (lowerStr command) p) then
    .skip
  else if privacy.exclude_folders.any (fun p =>
      lowerStr working_dir == lowerStr p
        || strStartsWith (lowerStr working_dir) (trimEndSlashes (lowerStr p) ++ "/")) then
    .skip
  else if privacy.excludes_regex.any (fun p =>
      regexMatches compileRegex p working_dir) then
    .skip
  else if privacy.excludes_starts_with_string.any
      (fun p => strStartsWith (lowerStr command) p) then
    .skip
  else if privacy.excludes_ends_with_string.any
      (fun p => strEndsWith (lowerStr command) p) then
    .skip
  else .cont

/-! ### Fingerprint cache, db/cache.rs -/

/-- A row of the fingerprint_cache table, from FingerprintCache::new; the
embedding blob is kept decoded, hit_count defaults to 1 and created_at to
insertion time. -/
structure CacheRecord where
  query : String
  keywords : String
  temporal : String
  embedding : List ℚ
  params_json : String
  hit_count : Nat
  last_used : Int
  created_at : Int
deriving DecidableEq, Repr

/-- A hot-cache element (struct CacheEntry in db/cache.rs), keeping the
fingerprint fields the insert path stores. -/
structure HotEntry where
  fp_query : String
  fp_embedding : List ℚ
  params : String
  hit_count : Nat
  last_used : Int
deriving DecidableEq, Repr

/-- The two tiers of FingerprintCache: the durable table and the hot
in-memory list, with the hot-set capacity (100 in the source). -/
structure CacheState where
  table : List CacheRecord
  hot : List HotEntry
  max_hot_cache_size : Nat
deriving DecidableEq, Repr

/-- Lexicographic strict order on (hit_count, last_used), the eviction
key. -/
def hotKeyLt (a b : HotEntry) : Bool :=
  a.hit_count < b.hit_count
    || (a.hit_count == b.hit_count && a.last_used < b.last_used)

/-- Index of the first hot entry with minimal (hit_count, last_used), as
min_by_key returns it. -/
def minHotIdx (l : List HotEntry) : Option Nat :=
  (l.foldl
      (fun (acc : Option (Nat × HotEntry) × Nat) e =>
        match acc.1 with
        | none => (some (acc.2, e), acc.2 + 1)
        | some (bi, be) =>
            if hotKeyLt e be then (some (acc.2, e), acc.2 + 1)
            else (some (bi, be), acc.2 + 1))
      (none, 0)).1.map (·.1)

/-- FingerprintCache::evict_least_used from db/cache.rs. -/
def evict_least_used (l : List HotEntry) : List HotEntry :=
  match minHotIdx l with
  | some i => l.eraseIdx i
  | none => l

/-- FingerprintCache::insert from db/cache.rs: INSERT OR REPLACE keyed on
the UNIQUE query column (the conflicting row is deleted and a fresh row
appended with hit_count 1 and created_at now), then an unconditional push
onto the hot list, with eviction only when the capacity is exceeded. -/
def cache_insert (st : CacheState) (fp_query fp_keywords fp_temporal : String)
    (fp_embedding : List ℚ) (params : String) (now : Int) : CacheState :=
  let table' := (st.table.filter fun r => !(r.query == fp_query)) ++
    [{ query := fp_query, keywords := fp_keywords, temporal := fp_temporal,
       embedding := fp_embedding, params_json := params, hit_count := 1,
       last_used := now, created_at := now }]
  let hot' := st.hot ++
    [{ fp_query := fp_query, fp_embedding := fp_embedding, params := params,
       hit_count := 1, last_used := now }]
  let hot'' := if hot'.length > st.max_hot_cache_size then evict_least_used hot'
               else hot'
  { st with table := table', hot := hot'' }

end Jot

open Jot

/-! ## Helper lemmas -/

/-- Folding the square accumulator over an all-zero vector returns the
accumulator. -/
theorem foldl_addsq_all_zero :
    ∀ (a : List ℚ) (c : ℚ), (∀ x ∈ a, x = 0) →
      a.foldl (fun s x => s + x * x) c = c := by
  intro a
  induction a with
  | nil => intro c _; rfl
  | cons x tl ih =>
      intro c h
      have hx : x = 0 := h x (List.mem_cons_self x tl)
      have htl : ∀ y ∈ tl, y = 0 := fun y hy => h y (List.mem_cons_of_mem x hy)
      simp only [List.foldl_cons, hx]
      simpa using ih (c + 0 * 0) htl

/-! ## Claim C5: clipboard capture dedup at the edge -/

/-- C5: a clipboard poll observation that is empty or equal to the last
captured text inserts no row and leaves the poller state unchanged; a
non-empty observation distinct from the last captured text inserts exactly
one new row and becomes the last captured text; consequently observing X,
then X again, then Y from a fresh poller yields exactly the rows X and
Y. -/
theorem clipboard_capture_dedup (st : ClipState) (obs X Y : String) :
    ((obs = "" ∨ obs = st.last_clip) → clipCheck st obs = st) ∧
    (obs ≠ "" → obs ≠ st.last_clip →
      (clipCheck st obs).rows = st.rows ++ [obs] ∧
      (clipCheck st obs).last_clip = obs) ∧
    (X ≠ "" → Y ≠ "" → Y ≠ X →
      ([X, X, Y].foldl clipCheck ClipState.init).rows = [X, Y]) := by
  refine ⟨?_, ?_, ?_⟩
  · intro h
    rcases h with h | h <;> simp [clipCheck, h]
  · intro h1 h2
    simp [clipCheck, h1, h2]
  · intro hX hY hYX
    simp [clipCheck, ClipState.init, hX, hY, hYX]

/-- Witness for C5: a repeated observation leaves the state alone, and the
X, X, Y scenario produces exactly two rows. -/
theorem clipboard_capture_dedup_witness :
    clipCheck ⟨"x", ["x"]⟩ "x" = ⟨"x", ["x"]⟩ ∧
    (["hello", "hello", "world"].foldl clipCheck ClipState.init).rows
      = ["hello", "world"] :=
  ⟨(clipboard_capture_dedup ⟨"x", ["x"]⟩ "x" "a" "b").1 (Or.inr rfl),
   (clipboard_capture_dedup ⟨"x", ["x"]⟩ "x" "hello" "world").2.2
     (by decide) (by decide) (by decide)⟩

/-! ## Claim C9: cosine similarity guards zero magnitudes -/

/-- C9: for any square-root function sending 0 to 0 (as the f32 sqrt
does), cosine_similarity returns exactly 0 whenever either input vector is
all zero, i.e. has zero magnitude: the division is guarded. -/
theorem cosine_zero_guard (sqrt : ℚ → ℚ) (a b : List ℚ) (h0 : sqrt 0 = 0)
    (h : (∀ x ∈ a, x = 0) ∨ (∀ x ∈ b, x = 0)) :
    cosine_similarity sqrt a b = 0 := by
  have hs : sumSq a = 0 ∨ sumSq b = 0 := by
    rcases h with h | h
    · exact Or.inl (foldl_addsq_all_zero a 0 h)
    · exact Or.inr (foldl_addsq_all_zero b 0 h)
  unfold cosine_similarity
  rcases hs with hs | hs <;> rw [hs, h0] <;> simp

/-- Witness for C9 at a concrete zero vector. -/
theorem cosine_zero_guard_witness :
    cosine_similarity (fun _ => 0) [0, 0] [1] = 0 :=
  cosine_zero_guard (fun _ => 0) [0, 0] [1] rfl (Or.inl (by decide))

/-! ## Claim C8: LIKE versus FTS branch selection -/

/-- C8 as stated is refuted by the empty query: keyword_search takes the
LIKE path for it, although its length is neither 1 nor 2. -/
theorem keyword_search_branch_counterexample :
    (keyword_search_shape "" EntryType.shell).useFts = false ∧
    ¬("".length = 1 ∨ "".length = 2) :=
  ⟨by decide, by decide⟩

/-- C8 amended: keyword_search uses the LIKE path exactly when the query
is at most 2 bytes long (including the empty query) and the FTS path with
the star-suffixed prefix pattern exactly when it is at least 3 bytes long;
both shapes carry the lowercased kind filter and read at most 50 rows. -/
theorem keyword_search_branch_spec (q : String) (t : EntryType)
    (rows : List Entry) (lexMatch : Entry → Bool) :
    ((keyword_search_shape q t).useFts = false ↔ q.utf8ByteSize ≤ 2) ∧
    ((keyword_search_shape q t).useFts = true ↔ 3 ≤ q.utf8ByteSize) ∧
    (keyword_search_shape q t).pattern
      = (if 3 ≤ q.utf8ByteSize then q ++ "*" else "%" ++ q ++ "%") ∧
    (keyword_search_shape q t).kindFilter = lowerStr t.toStr ∧
    (keyword_search_shape q t).rowLimit = 50 ∧
    (selectRows rows lexMatch t (keyword_search_shape q t).rowLimit).length ≤ 50 := by
  by_cases h : 3 ≤ q.utf8ByteSize
  · refine ⟨by simp [keyword_search_shape, h]; omega,
      by simp [keyword_search_shape, h],
      by simp [keyword_search_shape, h],
      by simp [keyword_search_shape, h],
      by simp [keyword_search_shape, h], ?_⟩
    simp only [keyword_search_shape, h, ge_iff_le, if_pos, selectRows]
    exact List.length_take_le _ _
  · refine ⟨by simp [keyword_search_shape, h]; omega,
      by simp [keyword_search_shape, h],
      by simp [keyword_search_shape, h],
      by simp [keyword_search_shape, h],
      by simp [keyword_search_shape, h], ?_⟩
    simp only [keyword_search_shape, h, ge_iff_le, if_neg, selectRows]
    exact List.length_take_le _ _

/-! ## Claim C2: fingerprint-cache similarity formula -/

/-- C2 as stated is refuted at two identical fingerprints with identical
one-dimensional unit embeddings: the similarity the source computes is
0.85 (keyword overlap 0.5, temporal 0.3, negation flags 0.05), while the
claimed formula cosine·0.6 + Jaccard·0.3 + temporal 0.1 gives 1.  The
square-root instance agrees with the true square root on the only
magnitude occurring here, 1. -/
theorem fingerprint_similarity_counterexample :
    QueryFingerprint.similarity
        ⟨{"ssh"}, some Temporal.today, [], [], none, false⟩
        ⟨{"ssh"}, some Temporal.today, [], [], none, false⟩ = 17 / 20 ∧
    specSimilarity (fun q => if q = 1 then 1 else 0) [1] [1]
        ⟨{"ssh"}, some Temporal.today, [], [], none, false⟩
        ⟨{"ssh"}, some Temporal.today, [], [], none, false⟩ = 1 ∧
    (17 / 20 : ℚ) ≠ 1 := by
  refine ⟨?_, ?_, by norm_num⟩
  · norm_num [QueryFingerprint.similarity]
  · norm_num [specSimilarity, cosine_similarity, sumSq, dotList, jaccardQ]

/-- C2 amended: the similarity the fingerprint cache scores with is
computed on the keyword fingerprint alone — Jaccard(keywords_a,
keywords_b)·0.5, plus 0.3 when the temporal buckets are equal, plus 0.15
when the entity types are equal and present, plus 0.05 when the negation
flags agree — the embeddings do not enter, and the score always lies in
[0, 1]. -/
theorem fingerprint_similarity_amended (a b : QueryFingerprint) :
    QueryFingerprint.similarity a b
      = jaccardQ a.keywords b.keywords * (5 / 10)
        + (if a.temporal = b.temporal then 3 / 10 else 0)
        + (if a.entity_type = b.entity_type ∧ a.entity_type.isSome then 15 / 100
           else 0)
        + (if a.negations = b.negations then 5 / 100 else 0) ∧
    0 ≤ QueryFingerprint.similarity a b ∧
    QueryFingerprint.similarity a b ≤ 1 := by
  have hj0 : 0 ≤ jaccardQ a.keywords b.keywords := by
    unfold jaccardQ
    split
    · norm_num
    · positivity
  have hj1 : jaccardQ a.keywords b.keywords ≤ 1 := by
    unfold jaccardQ
    split
    · norm_num
    · rename_i hne
      have hpos : 0 < ((a.keywords ∪ b.keywords).card : ℚ) := by
        have := Finset.card_pos.mpr (Finset.nonempty_iff_ne_empty.mpr hne)
        exact_mod_cast this
      rw [div_le_one hpos]
      exact_mod_cast Finset.card_le_card Finset.inter_subset_union
  have heq : QueryFingerprint.similarity a b
      = jaccardQ a.keywords b.keywords * (5 / 10)
        + (if a.temporal = b.temporal then 3 / 10 else 0)
        + (if a.entity_type = b.entity_type ∧ a.entity_type.isSome then 15 / 100
           else 0)
        + (if a.negations = b.negations then 5 / 100 else 0) := by
    unfold QueryFingerprint.similarity jaccardQ
    by_cases hu : a.keywords ∪ b.keywords = ∅ <;> simp [hu]
  refine ⟨heq, ?_, ?_⟩
  · rw [heq]
    have h1 : (0 : ℚ) ≤ (if a.temporal = b.temporal then (3 : ℚ) / 10 else 0) := by
      split <;> norm_num
    have h2 : (0 : ℚ) ≤
        (if a.entity_type = b.entity_type ∧ a.entity_type.isSome then (15 : ℚ) / 100
         else 0) := by
      split <;> norm_num
    have h3 : (0 : ℚ) ≤ (if a.negations = b.negations then (5 : ℚ) / 100 else 0) := by
      split <;> norm_num
    nlinarith
  · rw [heq]
    have h1 : (if a.temporal = b.temporal then (3 : ℚ) / 10 else 0) ≤ 3 / 10 := by
      split <;> norm_num
    have h2 : (if a.entity_type = b.entity_type ∧ a.entity_type.isSome then (15 : ℚ) / 100
        else 0) ≤ 15 / 100 := by
      split <;> norm_num
    have h3 : (if a.negations = b.negations then (5 : ℚ) / 100 else 0) ≤ 5 / 100 := by
      split <;> norm_num
    nlinarith

/-! ## Claim C4: per-row relevance scoring -/

/-- C4 as stated is refuted by a row whose working directory is empty:
the claimed formula awards the +15 exact-directory boost (both
directories are the empty string, hence equal), but the source only
boosts when both directories are non-empty, so the code returns 100 where
the claim demands 115. -/
theorem relevance_score_counterexample :
    calculate_relevance_score "a" "a" "" "" = 100 ∧
    specRelevance "a" "a" "" "" = 115 ∧ (100 : ℚ) ≠ 115 := by
  refine ⟨?_, ?_, by norm_num⟩
  · norm_num [calculate_relevance_score, lowerStr,
      show 'a'.toLower = 'a' from by decide, show "".isEmpty = true from by decide]
  · norm_num [specRelevance, specBaseScore, specBoost, lowerStr,
      show 'a'.toLower = 'a' from by decide]

/-- C4 amended: the per-row relevance equals the claimed base formula
plus the claimed working-directory boost, except that the boost is only
applied when both the row directory and the context directory are
non-empty. -/
theorem relevance_score_amended (content q result_pwd context_pwd : String) :
    calculate_relevance_score content q result_pwd context_pwd
      = specBaseScore content q
        + (if result_pwd ≠ "" ∧ context_pwd ≠ "" then
             specBoost result_pwd context_pwd
           else 0) := by
  unfold calculate_relevance_score specBaseScore specBoost
  by_cases hr : result_pwd = ""
  · simp [hr, String.isEmpty_iff]
  · by_cases hc : context_pwd = ""
    · simp [hr, hc, String.isEmpty_iff]
    · simp [hr, hc, String.isEmpty_iff]

/-! ## Claim C7: double insertion into the fingerprint cache -/

/-- C7 as stated is refuted from the empty cache: after inserting the same
(query, fingerprint, plan) twice, the durable table does hold exactly one
record with the later timestamp, but the hot in-memory list holds two
records for that query, because the insert path pushes unconditionally. -/
theorem cache_insert_twice_counterexample :
    ((cache_insert (cache_insert ⟨[], [], 100⟩ "q" "k" "t" [1] "plan" 10)
        "q" "k" "t" [1] "plan" 20).table.filter fun r => r.query == "q").length = 1 ∧
    ((cache_insert (cache_insert ⟨[], [], 100⟩ "q" "k" "t" [1] "plan" 10)
        "q" "k" "t" [1] "plan" 20).table.map (·.last_used)) = [20] ∧
    ((cache_insert (cache_insert ⟨[], [], 100⟩ "q" "k" "t" [1] "plan" 10)
        "q" "k" "t" [1] "plan" 20).hot.filter fun e => e.fp_query == "q").length = 2 := by
  exact ⟨by decide, by decide, by decide⟩

/-- Filtering for a query after filtering it away yields nothing. -/
theorem filter_query_filter_not (l : List CacheRecord) (q : String) :
    ((l.filter fun r => !(r.query == q)).filter fun r => r.query == q) = [] := by
  induction l with
  | nil => rfl
  | cons r tl ih =>
      by_cases h : r.query == q <;> simp [List.filter, h, ih]

/-- C7 amended: as long as the hot list stays within capacity, inserting
the same (query, fingerprint, plan) twice leaves exactly one durable
record for that query, with hit count 1 and last-used equal to the later
timestamp; the hot list instead accumulates one entry per insertion, so it
gains two records for that query. -/
theorem cache_insert_twice_spec (st : CacheState) (q k t : String) (emb : List ℚ)
    (params : String) (t1 t2 : Int)
    (hcap : st.hot.length + 2 ≤ st.max_hot_cache_size) :
    ((cache_insert (cache_insert st q k t emb params t1) q k t emb params t2).table.filter
        fun r => r.query == q)
      = [⟨q, k, t, emb, params, 1, t2, t2⟩] ∧
    ((cache_insert (cache_insert st q k t emb params t1) q k t emb params t2).hot.filter
        fun e => e.fp_query == q).length
      = (st.hot.filter fun e => e.fp_query == q).length + 2 := by
  have htable : ∀ (s : CacheState) (now : Int),
      (cache_insert s q k t emb params now).table
        = (s.table.filter fun r => !(r.query == q)) ++
          [⟨q, k, t, emb, params, 1, now, now⟩] := fun s now => rfl
  have hhot : ∀ (s : CacheState) (now : Int),
      s.hot.length + 1 ≤ s.max_hot_cache_size →
      (cache_insert s q k t emb params now).hot
        = s.hot ++ [⟨q, emb, params, 1, now⟩] := by
    intro s now h
    unfold cache_insert
    have hlen : ¬((s.hot ++ [(⟨q, emb, params, 1, now⟩ : HotEntry)]).length
        > s.max_hot_cache_size) := by
      simp only [List.length_append, List.length_singleton]
      omega
    simp only [hlen, if_false]
  have hmax1 : (cache_insert st q k t emb params t1).max_hot_cache_size
      = st.max_hot_cache_size := rfl
  have h1 : (cache_insert st q k t emb params t1).hot
      = st.hot ++ [⟨q, emb, params, 1, t1⟩] := hhot st t1 (by omega)
  have h2 : (cache_insert (cache_insert st q k t emb params t1) q k t emb params t2).hot
      = (cache_insert st q k t emb params t1).hot ++ [⟨q, emb, params, 1, t2⟩] := by
    refine hhot _ t2 ?_
    rw [hmax1, h1]
    simp only [List.length_append, List.length_singleton]
    omega
  constructor
  · rw [htable, htable]
    simp only [List.filter_append, filter_query_filter_not]
    simp
  · rw [h2, h1]
    simp [List.filter_append]

/-- Witness for C7 at the empty cache. -/
theorem cache_insert_twice_spec_witness :
    ((cache_insert (cache_insert ⟨[], [], 100⟩ "q" "k" "t" [] "plan" 10)
        "q" "k" "t" [] "plan" 20).table.filter fun r => r.query == "q")
      = [⟨"q", "k", "t", [], "plan", 1, 20, 20⟩] ∧
    ((cache_insert (cache_insert ⟨[], [], 100⟩ "q" "k" "t" [] "plan" 10)
        "q" "k" "t" [] "plan" 20).hot.filter fun e => e.fp_query == "q").length
      = ((⟨[], [], 100⟩ : CacheState).hot.filter fun e => e.fp_query == "q").length + 2 :=
  cache_insert_twice_spec ⟨[], [], 100⟩ "q" "k" "t" [] "plan" 10 20 (by decide)

/-! ## Claim C6: built-in privacy filter -/

/-- C6 as stated is refuted by an upper-case literal: the policy literal
PASSWORD occurs (case-insensitively) in the command, so the claim demands
Skip, but the source lowercases only the command and matches the literal
verbatim, so it returns Continue. -/
theorem privacy_filter_counterexample :
    on_command_captured (fun _ => none)
        ⟨["PASSWORD"], [], [], [], []⟩ "export DB_PASSWORD=foo" "" = .cont ∧
    strContains (lowerStr "export DB_PASSWORD=foo") (lowerStr "PASSWORD") = true :=
  ⟨by decide, by decide⟩

/-- C6 amended: the filter returns Skip exactly when some contains-literal
occurs verbatim in the lowercased command, or the lowercased working
directory equals a lowercased excluded folder or is nested under it, or
some regex compiles and matches the working directory, or some
starts-with or ends-with literal matches the lowercased command verbatim;
otherwise it returns Continue (so literal matching is case-insensitive in
the command only), and a pattern that fails to compile never contributes
a match. -/
theorem privacy_filter_spec (compileRegex : String → Option (String → Bool))
    (privacy : PrivacyPolicy) (command working_dir : String) :
    (on_command_captured compileRegex privacy command working_dir = .skip ↔
      ((∃ p ∈ privacy.excludes_contains_string,
          strContains (lowerStr command) p = true) ∨
       (∃ p ∈ privacy.exclude_folders,
          lowerStr working_dir = lowerStr p ∨
          strStartsWith (lowerStr working_dir)
            (trimEndSlashes (lowerStr p) ++ "/") = true) ∨
       (∃ p ∈ privacy.excludes_regex,
          ∃ m, compileRegex p = some m ∧ m working_dir = true) ∨
       (∃ p ∈ privacy.excludes_starts_with_string,
          strStartsWith (lowerStr command) p = true) ∨
       (∃ p ∈ privacy.excludes_ends_with_string,
          strEndsWith (lowerStr command) p = true))) ∧
    (on_command_captured compileRegex privacy command working_dir = .skip ∨
     on_command_captured compileRegex privacy command working_dir = .cont) ∧
    (∀ p target, compileRegex p = none → regexMatches compileRegex p target = false) := by
  have hre : ∀ p, (regexMatches compileRegex p working_dir = true)
      ↔ ∃ m, compileRegex p = some m ∧ m working_dir = true := by
    intro p
    unfold regexMatches
    cases h : compileRegex p with
    | none => simp
    | some m => simp [h]
  have key : on_command_captured compileRegex privacy command working_dir = .skip
      ↔ (privacy.excludes_contains_string.any
            (fun p => strContains (lowerStr command) p) = true
         ∨ privacy.exclude_folders.any (fun p =>
              lowerStr working_dir == lowerStr p
                || strStartsWith (lowerStr working_dir)
                    (trimEndSlashes (lowerStr p) ++ "/")) = true
         ∨ privacy.excludes_regex.any
            (fun p => regexMatches compileRegex p working_dir) = true
         ∨ privacy.excludes_starts_with_string.any
            (fun p => strStartsWith (lowerStr command) p) = true
         ∨ privacy.excludes_ends_with_string.any
            (fun p => strEndsWith (lowerStr command) p) = true) := by
    unfold on_command_captured
    split_ifs with h1 h2 h3 h4 h5 <;> (simp_all; try assumption)
  have e1 : (privacy.excludes_contains_string.any
      (fun p => strContains (lowerStr command) p) = true)
      ↔ ∃ p ∈ privacy.excludes_contains_string,
          strContains (lowerStr command) p = true := by
    simp [List.any_eq_true]
  have e2 : (privacy.exclude_folders.any (fun p =>
      lowerStr working_dir == lowerStr p
        || strStartsWith (lowerStr working_dir)
            (trimEndSlashes (lowerStr p) ++ "/")) = true)
      ↔ ∃ p ∈ privacy.exclude_folders,
          lowerStr working_dir = lowerStr p ∨
          strStartsWith (lowerStr working_dir)
            (trimEndSlashes (lowerStr p) ++ "/") = true := by
    simp [List.any_eq_true]
  have e3 : (privacy.excludes_regex.any
      (fun p => regexMatches compileRegex p working_dir) = true)
      ↔ ∃ p ∈ privacy.excludes_regex,
          ∃ m, compileRegex p = some m ∧ m working_dir = true := by
    simp only [List.any_eq_true, hre]
  have e4 : (privacy.excludes_starts_with_string.any
      (fun p => strStartsWith (lowerStr command) p) = true)
      ↔ ∃ p ∈ privacy.excludes_starts_with_string,
          strStartsWith (lowerStr command) p = true := by
    simp [List.any_eq_true]
  have e5 : (privacy.excludes_ends_with_string.any
      (fun p => strEndsWith (lowerStr command) p) = true)
      ↔ ∃ p ∈ privacy.excludes_ends_with_string,
          strEndsWith (lowerStr command) p = true := by
    simp [List.any_eq_true]
  refine ⟨?_, ?_, ?_⟩
  · rw [key, e1, e2, e3, e4, e5]
  · unfold on_command_captured
    split_ifs <;> simp
  · intro p target h
    unfold regexMatches
    simp [h]

/-! ## Claim C1: insert_shell dedup by (content, host) -/

/-- Session/association tracking never touches the entries table. -/
theorem track_entries (st : DbState) (i : Nat) (now : Int) :
    (track_associations_only st i now).entries = st.entries := rfl

/-- A list with an empty filter has no find? hit. -/
theorem find?_eq_none_of_filter_eq_nil {α} (p : α → Bool) :
    ∀ l : List α, l.filter p = [] → l.find? p = none := by
  intro l
  induction l with
  | nil => intro _; rfl
  | cons x tl ih =>
      intro h
      by_cases hx : p x
      · simp [List.filter_cons, hx] at h
      · simp only [List.filter_cons, hx] at h
        simp only [Bool.false_eq_true, if_false] at h
        simp [List.find?_cons, hx, ih h]

/-- A singleton filter pins down the find? hit. -/
theorem find?_eq_some_of_filter_eq_singleton {α} (p : α → Bool) :
    ∀ (l : List α) (e : α), l.filter p = [e] → l.find? p = some e := by
  intro l
  induction l with
  | nil => intro e h; simp at h
  | cons x tl ih =>
      intro e h
      by_cases hx : p x
      · simp only [List.filter_cons, hx, if_true] at h
        injection h with h1 h2
        subst h1
        simp [List.find?_cons, hx]
      · simp only [List.filter_cons, hx, Bool.false_eq_true, if_false] at h
        simp [List.find?_cons, hx, ih e h]


/-- Filtering commutes with mapping a function that preserves the
predicate. -/
theorem filter_map_comm_of_pred_inv {α} (p : α → Bool) (f : α → α)
    (hf : ∀ x, p (f x) = p x) :
    ∀ l : List α, (l.map f).filter p = (l.filter p).map f := by
  intro l
  induction l with
  | nil => rfl
  | cons x tl ih =>
      by_cases hx : p x
      · simp [List.filter_cons, hf, hx, ih]
      · simp [List.filter_cons, hf, hx, ih]

/-- find? commutes with mapping a function that preserves the predicate. -/
theorem find?_map_comm_of_pred_inv {α} (p : α → Bool) (f : α → α)
    (hf : ∀ x, p (f x) = p x) :
    ∀ l : List α, (l.map f).find? p = (l.find? p).map f := by
  intro l
  induction l with
  | nil => rfl
  | cons x tl ih =>
      by_cases hx : p x
      · simp [List.find?_cons, hf, hx]
      · simp [List.find?_cons, hf, hx, ih]

/-- A fresh (content, host) key inserts a single new row carrying exactly
the given arguments. -/
theorem insert_shell_step_new (st : DbState) (content : String)
    (host wd u : Option String) (ts : Int) (app wt : String)
    (emb : Option (List ℚ)) (now : Int)
    (h : matchingShellRows st content host = []) :
    matchingShellRows (insert_shell st content ts wd u host app wt emb now)
        content host
      = [⟨st.next_id, .shell, content, ts, 1, wd, u, host, some app, some wt,
          emb, now, now⟩] := by
  unfold matchingShellRows at h ⊢
  unfold insert_shell
  rw [find?_eq_none_of_filter_eq_nil _ _ h]
  rw [track_entries]
  simp only [List.filter_append, h, List.nil_append]
  simp [shellKeyMatch]

/-- A repeated (content, host) key updates the matching row in place:
times_run + 1, timestamp set to the event time, updated_at refreshed. -/
theorem insert_shell_step_upd (st : DbState) (content : String)
    (host wd u : Option String) (ts : Int) (app wt : String)
    (emb : Option (List ℚ)) (now : Int) (e : Entry)
    (h : matchingShellRows st content host = [e]) :
    matchingShellRows (insert_shell st content ts wd u host app wt emb now)
        content host
      = [{ e with
            times_run := e.times_run + 1
            updated_at := now
            timestamp := ts }] := by
  unfold matchingShellRows at h ⊢
  unfold insert_shell
  rw [find?_eq_some_of_filter_eq_singleton _ _ _ h]
  rw [track_entries]
  rw [filter_map_comm_of_pred_inv]
  · rw [h]
    simp
  · intro x
    by_cases hx : x.id == e.id <;> simp [shellKeyMatch, hx]

/-- Running a further operation sequence against a store holding exactly
one row for the key keeps exactly one row, adds the sequence length to
times_run, and leaves the timestamps of the last operation. -/
theorem applyShellOps_from_single (content : String) (host : Option String) :
    ∀ (ops : List ShellOp) (st : DbState) (e : Entry),
      matchingShellRows st content host = [e] →
      ∃ e', matchingShellRows (applyShellOps content host st ops) content host
          = [e'] ∧
        e'.times_run = e.times_run + ops.length ∧
        ((ops = [] ∧ e' = e) ∨
         (∃ o, ops.getLast? = some o ∧ e'.timestamp = o.ts ∧
            e'.updated_at = o.now)) := by
  intro ops
  induction ops with
  | nil =>
      intro st e h
      exact ⟨e, h, by simp, Or.inl ⟨rfl, rfl⟩⟩
  | cons o rest ih =>
      intro st e h
      have h1 := insert_shell_step_upd st content host o.working_dir o.user
        o.ts o.app_name o.window_title o.embedding o.now e h
      obtain ⟨e', he', htimes, hlast⟩ := ih
        (insert_shell st content o.ts o.working_dir o.user host o.app_name
          o.window_title o.embedding o.now)
        _ h1
      refine ⟨e', ?_, ?_, ?_⟩
      · simpa [applyShellOps, List.foldl_cons] using he'
      · simp only [htimes, List.length_cons]
        omega
      · rcases hlast with ⟨hrest, hee⟩ | ⟨o', ho', hts, hnow⟩
        · subst hrest
          subst hee
          exact Or.inr ⟨o, rfl, rfl, rfl⟩
        · refine Or.inr ⟨o', ?_, hts, hnow⟩
          cases rest with
          | nil => simp at ho'
          | cons r rs => rw [List.getLast?_cons_cons]; exact ho'

/-- C1: starting from a store with no shell row for the (content, host)
key, any non-empty sequence of insert_shell operations on that key leaves
exactly one matching row; its times_run equals the number of operations
performed, and its event timestamp and updated-at are those given to the
last operation — repeats update the row in place rather than inserting. -/
theorem insert_shell_dedup (content : String) (host : Option String)
    (st : DbState) (ops : List ShellOp)
    (h0 : matchingShellRows st content host = [])
    (hne : ops ≠ []) :
    ∃ e, matchingShellRows (applyShellOps content host st ops) content host
        = [e] ∧
      e.times_run = ops.length ∧
      ∃ o, ops.getLast? = some o ∧ e.timestamp = o.ts ∧ e.updated_at = o.now := by
  cases ops with
  | nil => exact absurd rfl hne
  | cons o rest =>
      have h1 := insert_shell_step_new st content host o.working_dir o.user
        o.ts o.app_name o.window_title o.embedding o.now h0
      obtain ⟨e', he', htimes, hlast⟩ := applyShellOps_from_single content host
        rest
        (insert_shell st content o.ts o.working_dir o.user host o.app_name
          o.window_title o.embedding o.now)
        _ h1
      refine ⟨e', by simpa [applyShellOps, List.foldl_cons] using he', ?_, ?_⟩
      · simp only [htimes, List.length_cons]
        omega
      · rcases hlast with ⟨hrest, hee⟩ | ⟨o', ho', hts, hnow⟩
        · subst hrest
          subst hee
          exact ⟨o, rfl, rfl, rfl⟩
        · refine ⟨o', ?_, hts, hnow⟩
          cases rest with
          | nil => simp at ho'
          | cons r rs => rw [List.getLast?_cons_cons]; exact ho'

/-- Witness for C1: two inserts of git from host alice starting from the
empty store leave one row with times_run 2 and the second timestamps. -/
theorem insert_shell_dedup_witness :
    ∃ e, matchingShellRows
        (applyShellOps "git" (some "alice") DbState.empty
          [⟨5, none, none, "T", "u", none, 100⟩,
           ⟨7, none, none, "T", "u", none, 200⟩])
        "git" (some "alice") = [e] ∧
      e.times_run = 2 ∧
      ∃ o, ([⟨5, none, none, "T", "u", none, 100⟩,
             ⟨7, none, none, "T", "u", none, 200⟩] : List ShellOp).getLast?
          = some o ∧ e.timestamp = o.ts ∧ e.updated_at = o.now :=
  insert_shell_dedup "git" (some "alice") DbState.empty
    [⟨5, none, none, "T", "u", none, 100⟩, ⟨7, none, none, "T", "u", none, 200⟩]
    (by decide) (by decide)

/-! ## Claim C10: history-sweep add_or_increment -/

/-- C10: when any shell row with equal content exists (regardless of
host), add_or_increment bumps that row in place — same row count, every
event timestamp unchanged, the first content-matching row gets times_run
+ 1 and a refreshed updated-at, and every other row survives untouched;
when no such row exists, a fresh row with no host and no context is
appended (only then), and a failed embedding inserts nothing. -/
theorem add_or_increment_spec (st : DbState) (cmd : String) (ts : Int)
    (emb : Option (List ℚ)) (v : List ℚ) (now : Int) :
    (∀ e, st.entries.find? (shellContentMatch cmd) = some e →
      (add_or_increment st cmd ts emb now).entries.length = st.entries.length ∧
      (add_or_increment st cmd ts emb now).entries.map (·.timestamp)
        = st.entries.map (·.timestamp) ∧
      (add_or_increment st cmd ts emb now).entries.find? (shellContentMatch cmd)
        = some { e with times_run := e.times_run + 1, updated_at := now } ∧
      ∀ r ∈ st.entries, r.id ≠ e.id →
        r ∈ (add_or_increment st cmd ts emb now).entries) ∧
    (st.entries.find? (shellContentMatch cmd) = none →
      (add_or_increment st cmd ts (some v) now).entries
        = st.entries ++
          [⟨st.next_id, .shell, cmd, ts, 1, none, none, none, some "Terminal",
            some "unknown", some v, now, now⟩] ∧
      (add_or_increment st cmd ts none now) = st) := by
  constructor
  · intro e he
    have hid : get_shell_command_id st cmd = some e.id := by
      unfold get_shell_command_id
      rw [he]
      rfl
    have hres : add_or_increment st cmd ts emb now
        = increment_shell_command st e.id now := by
      unfold add_or_increment
      rw [hid]
    rw [hres]
    unfold increment_shell_command
    refine ⟨by simp, ?_, ?_, ?_⟩
    · simp only [List.map_map]
      apply List.map_congr_left
      intro r _
      by_cases hr : r.id = e.id <;> simp [hr]
    · rw [find?_map_comm_of_pred_inv]
      · rw [he]
        simp
      · intro x
        by_cases hx : x.id = e.id <;> simp [shellContentMatch, hx]
    · intro r hr hne
      have : (fun x : Entry =>
          if x.id == e.id then
            { x with times_run := x.times_run + 1, updated_at := now }
          else x) r = r := by
        simp [hne]
      exact this ▸ List.mem_map_of_mem _ hr
  · intro hn
    have hid : get_shell_command_id st cmd = none := by
      unfold get_shell_command_id
      rw [hn]
      rfl
    constructor
    · have hkey : st.entries.find? (shellKeyMatch cmd none) = none := by
        rw [List.find?_eq_none] at hn ⊢
        intro x hx
        have := hn x hx
        simp only [shellContentMatch, Bool.and_eq_true, beq_iff_eq] at this
        simp only [shellKeyMatch, Bool.and_eq_true, beq_iff_eq]
        tauto
      have : add_or_increment st cmd ts (some v) now
          = insert_shell st cmd ts none none none "Terminal" "unknown" (some v) now := by
        unfold add_or_increment
        rw [hid]
      rw [this]
      unfold insert_shell
      rw [show st.entries.find? (shellKeyMatch cmd none) = none from hkey]
      rw [track_entries]
    · unfold add_or_increment
      rw [hid]

/-- Witness for C10: bumping an existing git row, and inserting into the
empty store. -/
theorem add_or_increment_spec_witness :
    ((add_or_increment
        ⟨[⟨0, .shell, "git", 5, 1, none, none, some "alice", some "T", some "u",
            none, 100, 100⟩], 1, [], []⟩
        "git" 9 none 300).entries.find? (shellContentMatch "git")
      = some ⟨0, .shell, "git", 5, 2, none, none, some "alice", some "T", some "u",
          none, 100, 300⟩) ∧
    (add_or_increment DbState.empty "git" 9 (some []) 300).entries
      = [⟨0, .shell, "git", 9, 1, none, none, none, some "Terminal",
          some "unknown", some [], 300, 300⟩] :=
  ⟨((add_or_increment_spec
      ⟨[⟨0, .shell, "git", 5, 1, none, none, some "alice", some "T", some "u",
          none, 100, 100⟩], 1, [], []⟩
      "git" 9 none [] 300).1
      ⟨0, .shell, "git", 5, 1, none, none, some "alice", some "T", some "u",
        none, 100, 100⟩ (by decide)).2.2.1,
   ((add_or_increment_spec DbState.empty "git" 9 (some []) [] 300).2
      (by decide)).1⟩

/-! ## Claim C3: co-occurrence edges -/

/-- Mapping a predicate-preserving function that fixes every matching
element leaves the filter unchanged. -/
theorem filter_map_eq_of_fix {α} (p : α → Bool) (f : α → α)
    (hinv : ∀ x, p (f x) = p x) (hfix : ∀ x, p x = true → f x = x) :
    ∀ l : List α, (l.map f).filter p = l.filter p := by
  intro l
  induction l with
  | nil => rfl
  | cons x tl ih =>
      by_cases hx : p x
      · simp only [List.map_cons, List.filter_cons, hinv, hx, if_true, ih,
          hfix x hx]
      · simp only [List.map_cons, List.filter_cons, hinv, hx, Bool.false_eq_true,
          if_false, ih]

/-- Upserting one association key leaves the rows of any key with a
different sequence order untouched. -/
theorem tripleRows_upsert_other (acc : List AssocRow) (a b a' b' : Nat)
    (ord ord' now : Int) (hne : ord ≠ ord') :
    tripleRows (upsertAssoc acc a' b' ord' now) a b ord
      = tripleRows acc a b ord := by
  unfold upsertAssoc tripleRows
  by_cases hany : acc.any (assocKeyMatch a' b' ord')
  · simp only [hany, if_true]
    apply filter_map_eq_of_fix
    · intro x
      unfold assocKeyMatch
      split <;> rfl
    · intro x hx
      have hx' : assocKeyMatch a' b' ord' x = false := by
        simp only [assocKeyMatch, Bool.and_eq_true, beq_iff_eq] at hx ⊢
        simp only [Bool.and_eq_false_iff, beq_eq_false_iff_ne]
        right
        rw [hx.2]
        exact fun hc => hne hc
      simp [hx']
  · simp only [hany, Bool.false_eq_true, if_false]
    rw [List.filter_append]
    have : assocKeyMatch a b ord ⟨a', b', ord', 1, now⟩ = false := by
      simp only [assocKeyMatch, Bool.and_eq_false_iff, beq_eq_false_iff_ne]
      right
      exact fun hc => hne hc.symm
    simp [this]

/-- Upserting a key whose row multiplicity is at most one yields exactly
one row for it, adds one to its recorded strength, and stamps it with
now. -/
theorem upsertAssoc_self (acc : List AssocRow) (a b : Nat) (ord now : Int)
    (hcount : (tripleRows acc a b ord).length ≤ 1) :
    (tripleRows (upsertAssoc acc a b ord now) a b ord).length = 1 ∧
    tripleStrength (upsertAssoc acc a b ord now) a b ord
      = tripleStrength acc a b ord + 1 ∧
    ∀ r ∈ tripleRows (upsertAssoc acc a b ord now) a b ord,
      r.last_seen = now := by
  by_cases hany : acc.any (assocKeyMatch a b ord)
  · obtain ⟨r0, hr0m, hr0⟩ := List.any_eq_true.mp hany
    have hmem : r0 ∈ tripleRows acc a b ord := by
      unfold tripleRows
      exact List.mem_filter.mpr ⟨hr0m, hr0⟩
    have hpos : 1 ≤ (tripleRows acc a b ord).length :=
      List.length_pos.mpr (List.ne_nil_of_mem hmem)
    have hone : (tripleRows acc a b ord).length = 1 := le_antisymm hcount hpos
    obtain ⟨r1, hr1⟩ := List.length_eq_one.mp hone
    have hr1key : assocKeyMatch a b ord r1 = true := by
      have : r1 ∈ tripleRows acc a b ord := by rw [hr1]; exact List.mem_singleton_self r1
      exact (List.mem_filter.mp this).2
    have hres : tripleRows (upsertAssoc acc a b ord now) a b ord
        = [{ r1 with strength := r1.strength + 1, last_seen := now }] := by
      unfold upsertAssoc tripleRows
      simp only [hany, if_true]
      rw [filter_map_comm_of_pred_inv]
      · unfold tripleRows at hr1
        rw [hr1]
        simp [hr1key]
      · intro x
        unfold assocKeyMatch
        split <;> rfl
    refine ⟨by rw [hres]; rfl, ?_, ?_⟩
    · unfold tripleStrength
      rw [hres, hr1]
      simp
    · intro r hr
      rw [hres] at hr
      rw [List.mem_singleton.mp hr]
  · have hnil : tripleRows acc a b ord = [] := by
      unfold tripleRows
      rw [List.filter_eq_nil_iff]
      intro x hx
      exact fun hc => (List.any_eq_true.not.mp hany) ⟨x, hx, hc⟩
    have hres : tripleRows (upsertAssoc acc a b ord now) a b ord
        = [⟨a, b, ord, 1, now⟩] := by
      unfold upsertAssoc tripleRows
      simp only [hany, Bool.false_eq_true, if_false]
      rw [List.filter_append]
      unfold tripleRows at hnil
      rw [hnil]
      simp [assocKeyMatch]
    refine ⟨by rw [hres]; rfl, ?_, ?_⟩
    · unfold tripleStrength
      rw [hres, hnil]
      rfl
    · intro r hr
      rw [hres] at hr
      rw [List.mem_singleton.mp hr]

/-- The first order the edge loop writes from counter start. -/
theorem edgeOrd_zero (n start : Nat) : edgeOrd n start 0 = (n : Int) - start := by
  unfold edgeOrd
  push_cast
  ring

/-- Shifting the loop counter by one shifts the list index by one. -/
theorem edgeOrd_shift (n start j : Nat) :
    edgeOrd n (start + 1) j = edgeOrd n start (j + 1) := by
  unfold edgeOrd
  push_cast
  ring

/-- Later loop iterations write orders different from the first one. -/
theorem edgeOrd_succ_ne (n start j : Nat) :
    edgeOrd n start (j + 1) ≠ (n : Int) - start := by
  unfold edgeOrd
  push_cast
  omega

/-- The edge loop leaves every key untouched whose order none of its
remaining iterations writes. -/
theorem insertEdges_preserve (eid : Nat) (now : Int) (n : Nat) (a b : Nat)
    (ord : Int) :
    ∀ (l : List Nat) (start : Nat) (acc : List AssocRow),
      (∀ j : Nat, j < l.length → edgeOrd n start j ≠ ord) →
      tripleRows (insertEdges eid now n l start acc) a b ord
        = tripleRows acc a b ord := by
  intro l
  induction l with
  | nil => intro start acc _; rfl
  | cons p rest ih =>
      intro start acc hj
      show tripleRows
          (insertEdges eid now n rest (start + 1)
            (upsertAssoc acc p eid ((n : Int) - start) now)) a b ord
        = tripleRows acc a b ord
      rw [ih (start + 1) _ ?_]
      · apply tripleRows_upsert_other
        have h0 := hj 0 (by simp)
        rw [edgeOrd_zero] at h0
        exact fun hc => h0 hc.symm
      · intro j hjlt
        rw [edgeOrd_shift]
        exact hj (j + 1) (by simpa using Nat.succ_lt_succ hjlt)

/-- One pass of the edge loop: the element at list index idx gets its key
(element, new entry, order n - (start + idx)) written exactly once — one
row afterwards, strength bumped by one, last-seen stamped with now. -/
theorem insertEdges_at (eid : Nat) (now : Int) (n : Nat) :
    ∀ (l : List Nat) (start : Nat) (acc : List AssocRow) (idx : Nat)
      (h : idx < l.length),
      (tripleRows acc (l.get ⟨idx, h⟩) eid (edgeOrd n start idx)).length ≤ 1 →
      (tripleRows (insertEdges eid now n l start acc) (l.get ⟨idx, h⟩) eid
          (edgeOrd n start idx)).length = 1 ∧
      tripleStrength (insertEdges eid now n l start acc) (l.get ⟨idx, h⟩) eid
          (edgeOrd n start idx)
        = tripleStrength acc (l.get ⟨idx, h⟩) eid (edgeOrd n start idx) + 1 ∧
      ∀ r ∈ tripleRows (insertEdges eid now n l start acc) (l.get ⟨idx, h⟩) eid
          (edgeOrd n start idx), r.last_seen = now := by
  intro l
  induction l with
  | nil =>
      intro start acc idx h
      exact absurd h (by simp)
  | cons p rest ih =>
      intro start acc idx h hcount
      have hunf : insertEdges eid now n (p :: rest) start acc
          = insertEdges eid now n rest (start + 1)
              (upsertAssoc acc p eid ((n : Int) - start) now) := rfl
      cases idx with
      | zero =>
          rw [show (p :: rest).get ⟨0, h⟩ = p from rfl, edgeOrd_zero]
            at hcount ⊢
          rw [hunf]
          have hpres := insertEdges_preserve eid now n p eid
            ((n : Int) - start) rest (start + 1)
            (upsertAssoc acc p eid ((n : Int) - start) now)
            (by
              intro j hjlt
              rw [edgeOrd_shift]
              exact edgeOrd_succ_ne n start j)
          have hself := upsertAssoc_self acc p eid ((n : Int) - start) now hcount
          refine ⟨?_, ?_, ?_⟩
          · rw [hpres]
            exact hself.1
          · unfold tripleStrength
            rw [hpres]
            have h21 := hself.2.1
            unfold tripleStrength at h21
            exact h21
          · intro r hr
            rw [hpres] at hr
            exact hself.2.2 r hr
      | succ j =>
          have hget : (p :: rest).get ⟨j + 1, h⟩
              = rest.get ⟨j, Nat.lt_of_succ_lt_succ h⟩ := rfl
          rw [hget] at hcount ⊢
          rw [hunf]
          have hne : edgeOrd n start (j + 1) ≠ (n : Int) - start :=
            edgeOrd_succ_ne n start j
          have hstep := tripleRows_upsert_other acc
            (rest.get ⟨j, Nat.lt_of_succ_lt_succ h⟩) eid p eid
            (edgeOrd n start (j + 1)) ((n : Int) - start) now hne
          have hrec := ih (start + 1)
            (upsertAssoc acc p eid ((n : Int) - start) now) j
            (Nat.lt_of_succ_lt_succ h)
            (by
              rw [edgeOrd_shift, hstep]
              exact hcount)
          rw [edgeOrd_shift] at hrec
          refine ⟨hrec.1, ?_, hrec.2.2⟩
          rw [hrec.2.1]
          unfold tripleStrength
          rw [hstep]

/-- Inserting into the descending-sorted list grows the length by one. -/
theorem length_insertByPosDesc (r : SessionRow) :
    ∀ l, (insertByPosDesc r l).length = l.length + 1 := by
  intro l
  induction l with
  | nil => rfl
  | cons x xs ih =>
      unfold insertByPosDesc
      by_cases hx : r.position ≥ x.position
      · simp [hx]
      · simp [hx, ih]

/-- The descending sort is length-preserving. -/
theorem length_sortByPosDesc : ∀ l, (sortByPosDesc l).length = l.length := by
  intro l
  induction l with
  | nil => rfl
  | cons x xs ih =>
      show (insertByPosDesc x (sortByPosDesc xs)).length = xs.length + 1
      rw [length_insertByPosDesc, ih]

/-- The starting order of the loop over the whole recent list. -/
theorem edgeOrd_start_zero (n idx : Nat) :
    edgeOrd n 0 idx = (n : Int) - idx := by
  unfold edgeOrd
  push_cast
  ring

/-- The association table a tracking call produces is the edge loop run
over the recent list. -/
theorem track_assocs_eq (st : DbState) (eid : Nat) (now : Int) :
    (track_associations_only st eid now).assocs
      = insertEdges eid now (recentOf st eid now).length (recentOf st eid now)
          0 st.assocs := rfl

/-- A window filter over session rows with pairwise-distinct positions
keeps at most 3 rows: their positions are distinct integers inside
[pos - 3, pos). -/
theorem filtered_window_length_le (rows : List SessionRow) (sid : String)
    (pos : Int)
    (hnodup : ((rows.filter fun r => r.session_id == sid).map (·.position)).Nodup) :
    (rows.filter fun (r : SessionRow) =>
        r.session_id == sid && decide (r.position < pos)
          && decide (r.position ≥ pos - 3)).length ≤ 3 := by
  classical
  have hsubl : List.Sublist
      (rows.filter fun (r : SessionRow) =>
        r.session_id == sid && decide (r.position < pos)
          && decide (r.position ≥ pos - 3))
      (rows.filter fun r => r.session_id == sid) := by
    apply List.monotone_filter_right
    intro r hr
    simp only [Bool.and_eq_true] at hr
    exact hr.1.1
  have hnd : ((rows.filter fun (r : SessionRow) =>
      r.session_id == sid && decide (r.position < pos)
        && decide (r.position ≥ pos - 3)).map (·.position)).Nodup :=
    List.Nodup.sublist (List.Sublist.map (·.position) hsubl) hnodup
  have hmem : ∀ x ∈ (rows.filter fun (r : SessionRow) =>
      r.session_id == sid && decide (r.position < pos)
        && decide (r.position ≥ pos - 3)).map (·.position),
      x ∈ Finset.Icc (pos - 3) (pos - 1) := by
    intro x hx
    obtain ⟨r, hr, hrx⟩ := List.mem_map.mp hx
    have := (List.mem_filter.mp hr).2
    simp only [Bool.and_eq_true, decide_eq_true_eq] at this
    rw [Finset.mem_Icc, ← hrx]
    omega
  have hsubf : ((rows.filter fun (r : SessionRow) =>
      r.session_id == sid && decide (r.position < pos)
        && decide (r.position ≥ pos - 3)).map (·.position)).toFinset
      ⊆ Finset.Icc (pos - 3) (pos - 1) := fun x hx =>
    hmem x (List.mem_toFinset.mp hx)
  have hlen : ((rows.filter fun (r : SessionRow) =>
      r.session_id == sid && decide (r.position < pos)
        && decide (r.position ≥ pos - 3)).map (·.position)).toFinset.card
      = (rows.filter fun (r : SessionRow) =>
      r.session_id == sid && decide (r.position < pos)
        && decide (r.position ≥ pos - 3)).length := by
    rw [List.toFinset_card_of_nodup hnd, List.length_map]
  rw [← hlen]
  calc ((rows.filter fun (r : SessionRow) =>
      r.session_id == sid && decide (r.position < pos)
        && decide (r.position ≥ pos - 3)).map (·.position)).toFinset.card
      ≤ (Finset.Icc (pos - 3) (pos - 1)).card := Finset.card_le_card hsubf
    _ = 3 := by
      rw [Int.card_Icc]
      norm_num
      rfl

/-- A row at the window border position pos is dropped by the window
filter. -/
theorem filter_window_append_self (rows : List SessionRow) (x : SessionRow)
    (sid : String) (pos : Int) (hx : ¬(x.position < pos)) :
    ((rows ++ [x]).filter fun (r : SessionRow) =>
        r.session_id == sid && decide (r.position < pos)
          && decide (r.position ≥ pos - 3))
      = rows.filter fun (r : SessionRow) =>
        r.session_id == sid && decide (r.position < pos)
          && decide (r.position ≥ pos - 3) := by
  rw [List.filter_append]
  have hdx : decide (x.position < pos) = false := decide_eq_false hx
  simp [List.filter_cons, hdx]

/-- When the positions recorded for the current session are pairwise
distinct, the recent list has at most ASSOCIATION_DEPTH = 3 elements. -/
theorem recentOf_length_le_three (st : DbState) (eid : Nat) (now : Int)
    (hnodup : sessionPositionsNodup st.sessions
      (get_or_create_session_id st.sessions now)) :
    (recentOf st eid now).length ≤ 3 := by
  unfold recentOf recentCommands
  rw [List.length_map, length_sortByPosDesc]
  rw [filter_window_append_self st.sessions _
    (get_or_create_session_id st.sessions now)
    (maxPosition st.sessions (get_or_create_session_id st.sessions now) + 1)
    (lt_irrefl _)]
  exact filtered_window_length_le st.sessions _ _ hnodup

/-- C3 as stated is refuted on a concrete store: the session holds
entries 0 (position 0) and 1 (position 1); tracking new entry 5 must, per
the claim, record the edge from the immediately preceding entry 1 with
sequence-order 1, but the source records no (1, 5, 1) row — it writes
(1, 5, 2) and (0, 5, 1), giving the nearest predecessor the highest
order. -/
theorem track_assoc_order_counterexample :
    (tripleRows (track_associations_only
        ⟨[], 6, [⟨0, "s", 0, 0⟩, ⟨1, "s", 1, 1⟩], []⟩ 5 2).assocs 1 5 1).length
      = 0 ∧
    (track_associations_only
        ⟨[], 6, [⟨0, "s", 0, 0⟩, ⟨1, "s", 1, 1⟩], []⟩ 5 2).assocs
      = [⟨1, 5, 2, 1, 2⟩, ⟨0, 5, 1, 1, 2⟩] :=
  ⟨by decide, by decide⟩

/-- C3 amended: for an insert whose session window holds n preceding
entries (n ≤ 3 whenever the session positions are distinct), a directed
edge (prev → curr) is recorded for each of them, but with sequence-order
n - idx for the entry at distance idx + 1: the immediately preceding
entry gets order n and the farthest gets order 1.  For each such triple,
provided the store holds at most one row for it, exactly one row remains
afterwards, its strength grows by exactly one per observation, and its
last-seen is refreshed to the current time rather than a new row being
created. -/
theorem track_assoc_edges (st : DbState) (eid : Nat) (now : Int) (idx : Nat)
    (h : idx < (recentOf st eid now).length)
    (hcount : (tripleRows st.assocs ((recentOf st eid now).get ⟨idx, h⟩) eid
        (((recentOf st eid now).length : Int) - idx)).length ≤ 1) :
    ((tripleRows (track_associations_only st eid now).assocs
        ((recentOf st eid now).get ⟨idx, h⟩) eid
        (((recentOf st eid now).length : Int) - idx)).length = 1 ∧
      tripleStrength (track_associations_only st eid now).assocs
          ((recentOf st eid now).get ⟨idx, h⟩) eid
          (((recentOf st eid now).length : Int) - idx)
        = tripleStrength st.assocs ((recentOf st eid now).get ⟨idx, h⟩) eid
            (((recentOf st eid now).length : Int) - idx) + 1 ∧
      ∀ r ∈ tripleRows (track_associations_only st eid now).assocs
          ((recentOf st eid now).get ⟨idx, h⟩) eid
          (((recentOf st eid now).length : Int) - idx), r.last_seen = now) ∧
    (sessionPositionsNodup st.sessions
        (get_or_create_session_id st.sessions now) →
      (recentOf st eid now).length ≤ 3) := by
  constructor
  · have hmain := insertEdges_at eid now (recentOf st eid now).length
      (recentOf st eid now) 0 st.assocs idx h
      (by rw [edgeOrd_start_zero]; exact hcount)
    rw [edgeOrd_start_zero] at hmain
    rw [track_assocs_eq]
    exact hmain
  · intro hnd
    exact recentOf_length_le_three st eid now hnd

/-- Witness for C3 on the concrete store of the counterexample: the
nearest predecessor 1 receives the edge (1, 5, 2) exactly once, and the
recent list stays within the depth bound. -/
theorem track_assoc_edges_witness :
    (tripleRows (track_associations_only
        ⟨[], 6, [⟨0, "s", 0, 0⟩, ⟨1, "s", 1, 1⟩], []⟩ 5 2).assocs 1 5 2).length
      = 1 ∧
    (recentOf ⟨[], 6, [⟨0, "s", 0, 0⟩, ⟨1, "s", 1, 1⟩], []⟩ 5 2).length ≤ 3 :=
  ⟨(track_assoc_edges ⟨[], 6, [⟨0, "s", 0, 0⟩, ⟨1, "s", 1, 1⟩], []⟩ 5 2 0
      (by decide) (by decide)).1.1,
   (track_assoc_edges ⟨[], 6, [⟨0, "s", 0, 0⟩, ⟨1, "s", 1, 1⟩], []⟩ 5 2 0
      (by decide) (by decide)).2 (by decide)⟩

/-- Witness for C6: a policy literal matches the lowercased command and
the filter skips; a pattern that does not compile is a non-match. -/
theorem privacy_filter_spec_witness :
    on_command_captured (fun _ => none)
        ⟨["password"], [], [], [], []⟩ "export DB_PASSWORD=foo" "" = .skip ∧
    regexMatches (fun _ => none) "[" "/tmp" = false :=
  ⟨((privacy_filter_spec (fun _ => none) ⟨["password"], [], [], [], []⟩
        "export DB_PASSWORD=foo" "").1).mpr
      (Or.inl ⟨"password", by decide, by decide⟩),
   (privacy_filter_spec (fun _ => none) ⟨["password"], [], [], [], []⟩
        "export DB_PASSWORD=foo" "").2.2 "[" "/tmp" rfl⟩
